import Mathlib

/-!
# Verification of `scripts/generate-data.js`

A shallow embedding of the data-generation script of the cardano-org
header repository.  The script fetches a GitHub repository tree,
sorts its entries (directories first, then files, each group ordered
by path comparison), builds a node list (synthetic root at index 0),
a directory-path → node-index map, an edge list of
`(childIndex, parentIndex)` pairs, trims the result to at most 2500
nodes rebuilding the edges, and serializes everything to
`nodes.js` / `edges.js`.

Paths are modelled as lists of components (the slash-separated pieces
of the JavaScript path string); `path.dirname` becomes `List.dropLast`
and the `dirname(p) === "."` root key becomes the empty list.  The
`localeCompare` comparison of two paths is modelled as lexicographic
comparison of the component lists (both orders place a proper prefix
before its extensions, which is the only property the script relies
on).  Submodule entries (type `commit`) are not modelled: every entry
is a directory (`tree`) or a file (`blob`), as in the data model.
-/

set_option linter.unusedVariables false

/-- Entry type of a fetched GitHub tree item: `tree` (directory) or
`blob` (file). -/
inductive EType where
  | tree
  | blob
deriving DecidableEq, Repr

/-- One entry of the fetched recursive tree: its path, split at the
slashes into components, and its type. -/
structure Entry where
  path : List String
  type : EType
deriving DecidableEq, Repr

instance : Inhabited Entry := ⟨⟨[], EType.blob⟩⟩

/-- A generated node, mirroring the serialized object
`\x7b t, p, id, pid? \x7d`: `t` is `"r"`, `"d"` or `"f"`; `p` is the path
(the root stores the literal `"/"`, modelled as `[]`); `id` is the
numeric id; `pid`, when present, is the parent-id string. -/
structure Node where
  t : String
  p : List String
  id : Nat
  pid : Option String
deriving DecidableEq, Repr

instance : Inhabited Node := ⟨⟨"r", [], 0, none⟩⟩

/-- `nodes[i]` for an index known to be in range. -/
def nodeAt (ns : List Node) (i : Nat) : Node :=
  ns.getD i default

/-- Lexicographic comparison of component lists: the model of
`a.localeCompare(b) <= 0` on the slash-joined path strings. -/
def pathLe : List String → List String → Bool
  | [], _ => true
  | _ :: _, [] => false
  | a :: as, b :: bs =>
    if a.data < b.data then true
    else if b.data < a.data then false
    else pathLe as bs

/-- The sort comparator of the script, as a `≤` test: directories
(`tree`) sort before files (`blob`); inside one group the paths are
compared. -/
def entryLe (a b : Entry) : Bool :=
  if a.type = b.type then pathLe a.path b.path
  else a.type == EType.tree

/-- `treeData.tree.sort((a, b) => ...)`: the engine's sort is stable,
and a stable sort by a total preorder has a unique result, so any
stable sort models it; insertion sort is used because it is
structurally recursive (it evaluates inside the kernel). -/
def sortEntries (l : List Entry) : List Entry :=
  List.insertionSort (fun a b => entryLe a b = true) l

/-- `path.dirname`, with the `"."` result for a top-level path mapped
to the root key `[]` (the script maps `"."` to the key `""`). -/
def parentKey (p : List String) : List String :=
  p.dropLast

/-- The directory map `dirMap`: most recent `set` first, so lookup of
the first matching key models overwriting `Map.set`. -/
def lookupMap : List (List String × Nat) → List String → Option Nat
  | [], _ => none
  | (k, v) :: rest, key => if k = key then some v else lookupMap rest key

/-- The mutable state of `main` while the node list is built. -/
structure GenState where
  nodes : List Node
  dirMap : List (List String × Nat)
  nextId : Nat
deriving Repr

/-- `\x7b t: 'r', p: '/', id: 0 \x7d`. -/
def rootNode : Node := ⟨"r", [], 0, none⟩

/-- Initial state: the root node pushed, `dirMap.set('', 0)`,
`nextId = 1`. -/
def initState : GenState :=
  ⟨[rootNode], [([], 0)], 1⟩

/-- One iteration of the first pass (directory nodes): non-`tree`
entries are skipped; a `tree` entry takes the next id, looks its
parent up in the current map, carries a `pid` exactly when the parent
is found and is not the root, registers its own path at the index it
will occupy, and is appended. -/
def dirStep (s : GenState) (e : Entry) : GenState :=
  if e.type = EType.tree then
    let id := s.nextId
    let parentIdx := lookupMap s.dirMap (parentKey e.path)
    let pid : Option String :=
      match parentIdx with
      | some j => if j ≠ 0 then some (toString (nodeAt s.nodes j).id) else none
      | none => none
    { nodes := s.nodes ++ [⟨"d", e.path, id, pid⟩],
      dirMap := (e.path, s.nodes.length) :: s.dirMap,
      nextId := id + 1 }
  else s

/-- One iteration of the second pass (file nodes): like `dirStep` but
for `blob` entries, and the file path is not registered in the map. -/
def fileStep (s : GenState) (e : Entry) : GenState :=
  if e.type = EType.blob then
    let id := s.nextId
    let parentIdx := lookupMap s.dirMap (parentKey e.path)
    let pid : Option String :=
      match parentIdx with
      | some j => if j ≠ 0 then some (toString (nodeAt s.nodes j).id) else none
      | none => none
    { nodes := s.nodes ++ [⟨"f", e.path, id, pid⟩],
      dirMap := s.dirMap,
      nextId := id + 1 }
  else s

/-- The first `for (const entry of entries)` loop. -/
def dirPass : GenState → List Entry → GenState
  | s, [] => s
  | s, e :: rest => dirPass (dirStep s e) rest

/-- The second `for (const entry of entries)` loop. -/
def filePass : GenState → List Entry → GenState
  | s, [] => s
  | s, e :: rest => filePass (fileStep s e) rest

/-- Both passes over the sorted entries, from the initial state. -/
def buildNodes (entries : List Entry) : GenState :=
  filePass (dirPass initState (sortEntries entries)) (sortEntries entries)

/-- The edge loop: for `i` from 1, one `(i, parentIdx)` pair whenever
the parent path of node `i` is in the map.  The script stores the
pairs flattened into one array; the pair list carries the same data. -/
def buildEdges (ns : List Node) (m : List (List String × Nat)) : List (Nat × Nat) :=
  (List.range' 1 (ns.length - 1)).filterMap fun i =>
    match lookupMap m (parentKey (nodeAt ns i).p) with
    | some parentIdx => some (i, parentIdx)
    | none => none

/-- The edge rebuild after trimming: same loop with the extra
`parentIdx < nodes.length` bound check. -/
def buildTrimmedEdges (ns : List Node) (m : List (List String × Nat)) : List (Nat × Nat) :=
  (List.range' 1 (ns.length - 1)).filterMap fun i =>
    match lookupMap m (parentKey (nodeAt ns i).p) with
    | some parentIdx =>
        if parentIdx < ns.length then some (i, parentIdx) else none
    | none => none

/-- `const MAX_NODES = 2500` (GPU tier max). -/
def MAX_NODES : Nat := 2500

/-- The whole construction of `main`: build nodes and edges; when the
node list exceeds the cap, truncate it to the first `MAX_NODES`
entries and rebuild the edges over the kept nodes. -/
def generate (entries : List Entry) : List Node × List (Nat × Nat) :=
  let s := buildNodes entries
  if s.nodes.length > MAX_NODES then
    let kept := s.nodes.take MAX_NODES
    (kept, buildTrimmedEdges kept s.dirMap)
  else
    (s.nodes, buildEdges s.nodes s.dirMap)

/-- JSON string escaping (quote and backslash; the characters that
occur in repository paths). -/
def escapeJsonChar (c : Char) : String :=
  if c = '"' ∨ c = '\\' then "\\" ++ String.singleton c else String.singleton c

/-- Escape a whole string for JSON. -/
def escapeJson (s : String) : String :=
  String.join (s.toList.map escapeJsonChar)

/-- The `p` field as serialized: the root writes `"/"`, other nodes
their slash-joined path. -/
def pathString (p : List String) : String :=
  if p = [] then "/" else String.intercalate "/" p

/-- `JSON.stringify(n)` for one node (insertion order `t, p, id, pid`). -/
def nodeJson (n : Node) : String :=
  "\x7b\"t\":\"" ++ n.t ++ "\",\"p\":\"" ++ escapeJson (pathString n.p) ++
    "\",\"id\":" ++ toString n.id ++
    (match n.pid with
     | some s => ",\"pid\":\"" ++ escapeJson s ++ "\""
     | none => "") ++ "\x7d"

/-- The content written to `src/data/nodes.js`. -/
def nodesContent (ns : List Node) : String :=
  "export const nodes = [\n  [\n" ++
    String.intercalate ",\n" (ns.map (fun n => "    " ++ nodeJson n)) ++
    "\n  ]\n]\n"

/-- The content written to `src/data/edges.js` (the flattened pair
array joined with `", "`). -/
def edgesContent (es : List (Nat × Nat)) : String :=
  "export const edges = [" ++
    String.intercalate ", " (((es.map (fun e => [e.1, e.2])).flatten).map toString) ++
    "]\n"

/-- Model of `ghFetch`: a response is `none` for a network error, or a
status code with the parsed body; a non-200 status rejects. -/
def ghFetchM {α : Type} (resp : Option (Nat × α)) : Except String α :=
  match resp with
  | none => Except.error "network error"
  | some (status, body) =>
      if status = 200 then Except.ok body else Except.error "GitHub API error"

/-- Observable outcome of one script run: the exit code and the
`(file, content)` writes performed. -/
structure ScriptResult where
  exitCode : Nat
  writes : List (String × String)
deriving DecidableEq, Repr

/-- The top level of the script: `process.argv.slice(2)` is `args`;
`repoResp` answers the default-branch request (used only when no
branch argument is given) and `treeResp` the tree request.  Any
malformed argument or failed request exits with status 1 before
anything is written; on success exactly the two data files are
written. -/
def runScript (args : List String) (repoResp : Option (Nat × String))
    (treeResp : Option (Nat × List Entry)) : ScriptResult :=
  match args.head? with
  | none => ⟨1, []⟩
  | some repoArg =>
    if repoArg = "" then ⟨1, []⟩
    else
      let parts := repoArg.splitOn "/"
      let owner := parts.headD ""
      let repo := (parts[1]?).getD ""
      if owner = "" ∨ repo = "" then ⟨1, []⟩
      else
        let branch := (args[1]?).getD ""
        let refE : Except String String :=
          if branch ≠ "" then Except.ok branch else ghFetchM repoResp
        match refE with
        | Except.error _ => ⟨1, []⟩
        | Except.ok _ =>
          match ghFetchM treeResp with
          | Except.error _ => ⟨1, []⟩
          | Except.ok entries =>
            let out := generate entries
            ⟨0, [("nodes.js", nodesContent out.1), ("edges.js", edgesContent out.2)]⟩

/-- A fetched tree is well formed when no entry has an empty path and
every entry's parent path is the root or the path of some `tree`
entry of the list (GitHub's recursive tree listing guarantees both
whenever the listing is not truncated). -/
def WellFormed (entries : List Entry) : Prop :=
  (∀ e ∈ entries, e.path ≠ []) ∧
  (∀ e ∈ entries, parentKey e.path = [] ∨
    ∃ d ∈ entries, d.type = EType.tree ∧ d.path = parentKey e.path)

instance (entries : List Entry) : Decidable (WellFormed entries) := by
  unfold WellFormed
  infer_instance

/-- A family of flat trees (n top-level files) used to exercise the
generator on concrete inputs. -/
def flatEntries (n : Nat) : List Entry :=
  (List.range n).map fun i => ⟨[toString i], EType.blob⟩

/-! ## Properties of the path comparison -/

theorem pathLe_refl (l : List String) : pathLe l l = true := by
  induction l with
  | nil => rfl
  | cons a as ih => simp [pathLe, ih]

theorem pathLe_total (a b : List String) : pathLe a b = true ∨ pathLe b a = true := by
  induction a generalizing b with
  | nil => left; rfl
  | cons x xs ih =>
    cases b with
    | nil => right; rfl
    | cons y ys =>
      rcases lt_trichotomy x.data y.data with h | h | h
      · left; simp [pathLe, h]
      · have hxy : x = y := String.ext h
        subst hxy
        rcases ih ys with h2 | h2
        · left; simp [pathLe, h2]
        · right; simp [pathLe, h2]
      · right; simp [pathLe, h]

theorem pathLe_trans {a b c : List String} (h1 : pathLe a b = true)
    (h2 : pathLe b c = true) : pathLe a c = true := by
  induction a generalizing b c with
  | nil => rfl
  | cons x xs ih =>
    cases b with
    | nil => simp [pathLe] at h1
    | cons y ys =>
      cases c with
      | nil => simp [pathLe] at h2
      | cons z zs =>
        by_cases hxy : x.data < y.data
        · by_cases hyz : y.data < z.data
          · simp [pathLe, lt_trans hxy hyz]
          · by_cases hzy : z.data < y.data
            · simp [pathLe, hyz, hzy] at h2
            · have hyz2 : y = z :=
                String.ext (le_antisymm (not_lt.1 hzy) (not_lt.1 hyz))
              subst hyz2
              simp [pathLe, hxy]
        · by_cases hyx : y.data < x.data
          · simp [pathLe, hxy, hyx] at h1
          · have hxy2 : x = y :=
              String.ext (le_antisymm (not_lt.1 hyx) (not_lt.1 hxy))
            subst hxy2
            simp only [pathLe, if_neg (lt_irrefl x.data)] at h1
            by_cases hxz : x.data < z.data
            · simp [pathLe, hxz]
            · by_cases hzx : z.data < x.data
              · simp [pathLe, hxz, hzx] at h2
              · have hxz2 : x = z :=
                  String.ext (le_antisymm (not_lt.1 hzx) (not_lt.1 hxz))
                subst hxz2
                simp only [pathLe, if_neg (lt_irrefl x.data)] at h2 ⊢
                exact ih h1 h2

theorem pathLe_antisymm {a b : List String} (h1 : pathLe a b = true)
    (h2 : pathLe b a = true) : a = b := by
  induction a generalizing b with
  | nil =>
    cases b with
    | nil => rfl
    | cons y ys => simp [pathLe] at h2
  | cons x xs ih =>
    cases b with
    | nil => simp [pathLe] at h1
    | cons y ys =>
      by_cases hxy : x.data < y.data
      · simp [pathLe, hxy, not_lt.2 hxy.le, lt_irrefl] at h2
      · by_cases hyx : y.data < x.data
        · simp [pathLe, hxy, hyx] at h1
        · have hx : x = y :=
            String.ext (le_antisymm (not_lt.1 hyx) (not_lt.1 hxy))
          subst hx
          simp only [pathLe, if_neg (lt_irrefl x.data)] at h1 h2
          rw [ih h1 h2]

theorem pathLe_append (l m : List String) : pathLe l (l ++ m) = true := by
  induction l with
  | nil => cases m <;> rfl
  | cons x xs ih => simp [pathLe, ih]

/-- A proper prefix (in particular, the parent path of a nonempty
path) compares `≤` to the path itself. -/
theorem pathLe_dropLast (p : List String) : pathLe (parentKey p) p = true := by
  by_cases h : p = []
  · subst h; rfl
  · have := pathLe_append p.dropLast [p.getLast h]
    rw [List.dropLast_append_getLast h] at this
    exact this

/-- The parent key of a nonempty path differs from the path. -/
theorem parentKey_ne (p : List String) (h : p ≠ []) : parentKey p ≠ p := by
  intro heq
  have hlen := congrArg List.length heq
  simp only [parentKey, List.length_dropLast] at hlen
  have : 0 < p.length := List.length_pos.2 h
  omega

/-! ## Properties of the sort comparator -/

theorem entryLe_total (a b : Entry) : (entryLe a b || entryLe b a) = true := by
  by_cases h : a.type = b.type
  · simp only [entryLe, if_pos h, if_pos h.symm, Bool.or_eq_true]
    exact pathLe_total a.path b.path
  · cases ha : a.type <;> cases hb : b.type <;>
      simp_all [entryLe]

theorem entryLe_trans (a b c : Entry) (h1 : entryLe a b = true)
    (h2 : entryLe b c = true) : entryLe a c = true := by
  cases ha : a.type <;> cases hb : b.type <;> cases hc : c.type <;>
    simp_all [entryLe] <;> exact pathLe_trans h1 h2

instance : IsTotal Entry (fun a b => entryLe a b = true) :=
  ⟨fun a b => by simpa [Bool.or_eq_true] using entryLe_total a b⟩

instance : IsTrans Entry (fun a b => entryLe a b = true) :=
  ⟨fun a b c => entryLe_trans a b c⟩

/-- Pairwise `entryLe` over the sorted entry list. -/
theorem sortEntries_pairwise (l : List Entry) :
    List.Pairwise (fun a b => entryLe a b = true) (sortEntries l) :=
  List.sorted_insertionSort (fun a b => entryLe a b = true) l

theorem sortEntries_perm (l : List Entry) : (sortEntries l).Perm l :=
  List.perm_insertionSort (fun a b => entryLe a b = true) l

/-! ## The directory map and its bindings -/

theorem lookupMap_mem {m : List (List String × Nat)} {k : List String} {v : Nat}
    (h : lookupMap m k = some v) : (k, v) ∈ m := by
  induction m with
  | nil => simp [lookupMap] at h
  | cons kv rest ih =>
    obtain ⟨k0, v0⟩ := kv
    by_cases hk : k0 = k
    · subst hk
      simp only [lookupMap, if_pos rfl] at h
      simp at h
      subst h
      exact List.mem_cons_self _ _
    · simp only [lookupMap, if_neg hk] at h
      exact List.mem_cons_of_mem _ (ih h)

theorem lookupMap_isSome_of_mem {m : List (List String × Nat)} {k : List String}
    {v : Nat} (h : (k, v) ∈ m) : ∃ w, lookupMap m k = some w := by
  induction m with
  | nil => simp at h
  | cons kv rest ih =>
    obtain ⟨k0, v0⟩ := kv
    by_cases hk : k0 = k
    · exact ⟨v0, by simp [lookupMap, hk]⟩
    · rcases List.mem_cons.1 h with h1 | h1
      · exact absurd (congrArg Prod.fst h1).symm hk
      · obtain ⟨w, hw⟩ := ih h1
        exact ⟨w, by simp [lookupMap, hk, hw]⟩

theorem lookupMap_append_of_not_mem {m1 m2 : List (List String × Nat)}
    {k : List String} (h : ∀ kv ∈ m1, kv.1 ≠ k) :
    lookupMap (m1 ++ m2) k = lookupMap m2 k := by
  induction m1 with
  | nil => rfl
  | cons kv rest ih =>
    obtain ⟨k0, v0⟩ := kv
    have hk : k0 ≠ k := h (k0, v0) (List.mem_cons_self _ _)
    simp only [List.cons_append, lookupMap, if_neg hk]
    exact ih fun kv hkv => h kv (List.mem_cons_of_mem _ hkv)

/-- The map bindings produced by the directory pass over `ds`,
starting at node index `base`; most recent first. -/
def bindingsFor (base : Nat) : List Entry → List (List String × Nat)
  | [] => []
  | e :: rest => bindingsFor (base + 1) rest ++ [(e.path, base)]

theorem bindingsFor_append (base : Nat) (t u : List Entry) :
    bindingsFor base (t ++ u) =
      bindingsFor (base + t.length) u ++ bindingsFor base t := by
  induction t generalizing base with
  | nil => simp [bindingsFor]
  | cons e rest ih =>
    have harith : base + 1 + rest.length = base + (rest.length + 1) := by omega
    show bindingsFor base (e :: (rest ++ u)) = _
    rw [bindingsFor, ih (base + 1), harith, List.append_assoc, bindingsFor,
      List.length_cons]

theorem mem_bindingsFor {base : Nat} {ds : List Entry} {k : List String} {v : Nat}
    (h : (k, v) ∈ bindingsFor base ds) :
    ∃ j, ∃ hj : j < ds.length, v = base + j ∧ ds[j].path = k := by
  induction ds generalizing base with
  | nil => simp [bindingsFor] at h
  | cons e rest ih =>
    simp only [bindingsFor, List.mem_append, List.mem_singleton] at h
    rcases h with h | h
    · obtain ⟨j, hj, hv, hp⟩ := ih h
      exact ⟨j + 1, by simpa using Nat.succ_lt_succ hj, by omega, by simpa using hp⟩
    · simp only [Prod.ext_iff] at h
      obtain ⟨hk, hv⟩ := h
      exact ⟨0, by simp, by omega, by simp [hk]⟩

theorem bindingsFor_mem {ds : List Entry} (base : Nat) {j : Nat}
    (hj : j < ds.length) : (ds[j].path, base + j) ∈ bindingsFor base ds := by
  induction ds generalizing base j with
  | nil => simp at hj
  | cons e rest ih =>
    cases j with
    | zero => simp [bindingsFor]
    | succ j' =>
      have hj' : j' < rest.length := by simpa using Nat.lt_of_succ_lt_succ hj
      have := ih (base + 1) hj'
      simp only [bindingsFor, List.mem_append]
      left
      have : (rest[j'].path, base + 1 + j') ∈ bindingsFor (base + 1) rest := this
      simpa [Nat.add_assoc, Nat.add_comm 1 j'] using this

/-! ## Characterization of the two node-building passes -/

/-- The `tree` entries of a list, in order. -/
def dirsOf (l : List Entry) : List Entry :=
  l.filter fun e => e.type == EType.tree

/-- The `blob` entries of a list, in order. -/
def filesOf (l : List Entry) : List Entry :=
  l.filter fun e => e.type == EType.blob

/-- `nextId` tracks the node count and every node's `id` is its index. -/
def IdsOk (s : GenState) : Prop :=
  s.nextId = s.nodes.length ∧ ∀ i < s.nodes.length, (nodeAt s.nodes i).id = i

/-- Every map binding points inside the node list, at a node carrying
the bound path. -/
def MapOk (s : GenState) : Prop :=
  ∀ kv ∈ s.dirMap, kv.2 < s.nodes.length ∧ (nodeAt s.nodes kv.2).p = kv.1

theorem nodeAt_append_left {ns : List Node} (ms : List Node) {i : Nat}
    (h : i < ns.length) : nodeAt (ns ++ ms) i = nodeAt ns i := by
  simp [nodeAt, List.getD_eq_getElem?_getD, List.getElem?_append, h]

theorem nodeAt_append_self (ns : List Node) (n : Node) :
    nodeAt (ns ++ [n]) ns.length = n := by
  simp [nodeAt, List.getD_eq_getElem?_getD,
    List.getElem?_append_right (le_refl ns.length)]

theorem dirPass_tp (l : List Entry) : ∀ s : GenState,
    (dirPass s l).nodes.map (fun n => (n.t, n.p)) =
      s.nodes.map (fun n => (n.t, n.p)) ++
        (dirsOf l).map (fun e => ("d", e.path)) := by
  induction l with
  | nil => intro s; simp [dirPass, dirsOf]
  | cons e rest ih =>
    intro s
    show (dirPass (dirStep s e) rest).nodes.map (fun n => (n.t, n.p)) = _
    rw [ih]
    by_cases h : e.type = EType.tree
    · simp [dirStep, if_pos h, dirsOf, List.filter_cons, h]
    · have hb : (e.type == EType.tree) = false := by
        cases he : e.type <;> simp_all
      simp [dirStep, if_neg h, dirsOf, List.filter_cons, hb]

theorem filePass_tp (l : List Entry) : ∀ s : GenState,
    (filePass s l).nodes.map (fun n => (n.t, n.p)) =
      s.nodes.map (fun n => (n.t, n.p)) ++
        (filesOf l).map (fun e => ("f", e.path)) := by
  induction l with
  | nil => intro s; simp [filePass, filesOf]
  | cons e rest ih =>
    intro s
    show (filePass (fileStep s e) rest).nodes.map (fun n => (n.t, n.p)) = _
    rw [ih]
    by_cases h : e.type = EType.blob
    · simp [fileStep, if_pos h, filesOf, List.filter_cons, h]
    · have hb : (e.type == EType.blob) = false := by
        cases he : e.type <;> simp_all
      simp [fileStep, if_neg h, filesOf, List.filter_cons, hb]

theorem dirPass_length (l : List Entry) (s : GenState) :
    (dirPass s l).nodes.length = s.nodes.length + (dirsOf l).length := by
  have := congrArg List.length (dirPass_tp l s)
  simpa using this

theorem filePass_length (l : List Entry) (s : GenState) :
    (filePass s l).nodes.length = s.nodes.length + (filesOf l).length := by
  have := congrArg List.length (filePass_tp l s)
  simpa using this

theorem dirPass_dirMap (l : List Entry) : ∀ s : GenState,
    (dirPass s l).dirMap = bindingsFor s.nodes.length (dirsOf l) ++ s.dirMap := by
  induction l with
  | nil => intro s; simp [dirPass, dirsOf, bindingsFor]
  | cons e rest ih =>
    intro s
    show (dirPass (dirStep s e) rest).dirMap = _
    rw [ih]
    by_cases h : e.type = EType.tree
    · have hds : dirsOf (e :: rest) = e :: dirsOf rest := by
        simp [dirsOf, List.filter_cons, h]
      rw [hds, bindingsFor, List.append_assoc]
      simp [dirStep, if_pos h]
    · have hb : (e.type == EType.tree) = false := by
        cases he : e.type <;> simp_all
      have hds : dirsOf (e :: rest) = dirsOf rest := by
        simp [dirsOf, List.filter_cons, hb]
      rw [hds]
      simp [dirStep, if_neg h]

theorem filePass_dirMap (l : List Entry) : ∀ s : GenState,
    (filePass s l).dirMap = s.dirMap := by
  induction l with
  | nil => intro s; simp [filePass]
  | cons e rest ih =>
    intro s
    show (filePass (fileStep s e) rest).dirMap = _
    rw [ih]
    by_cases h : e.type = EType.blob
    · simp [fileStep, if_pos h]
    · simp [fileStep, if_neg h]

theorem dirStep_idsOk {s : GenState} (h : IdsOk s) (e : Entry) :
    IdsOk (dirStep s e) := by
  by_cases ht : e.type = EType.tree
  · obtain ⟨hn, hi⟩ := h
    constructor
    · simp [dirStep, if_pos ht, hn]
    · intro i hilt
      simp only [dirStep, if_pos ht, List.length_append, List.length_cons,
        List.length_nil] at hilt ⊢
      rcases Nat.lt_or_ge i s.nodes.length with hc | hc
      · rw [nodeAt_append_left _ hc]
        exact hi i hc
      · have : i = s.nodes.length := by omega
        subst this
        rw [nodeAt_append_self]
        exact hn
  · simpa [dirStep, if_neg ht] using h

theorem fileStep_idsOk {s : GenState} (h : IdsOk s) (e : Entry) :
    IdsOk (fileStep s e) := by
  by_cases ht : e.type = EType.blob
  · obtain ⟨hn, hi⟩ := h
    constructor
    · simp [fileStep, if_pos ht, hn]
    · intro i hilt
      simp only [fileStep, if_pos ht, List.length_append, List.length_cons,
        List.length_nil] at hilt ⊢
      rcases Nat.lt_or_ge i s.nodes.length with hc | hc
      · rw [nodeAt_append_left _ hc]
        exact hi i hc
      · have : i = s.nodes.length := by omega
        subst this
        rw [nodeAt_append_self]
        exact hn
  · simpa [fileStep, if_neg ht] using h

theorem dirPass_idsOk (l : List Entry) : ∀ s : GenState, IdsOk s →
    IdsOk (dirPass s l) := by
  induction l with
  | nil => intro s h; exact h
  | cons e rest ih => intro s h; exact ih _ (dirStep_idsOk h e)

theorem filePass_idsOk (l : List Entry) : ∀ s : GenState, IdsOk s →
    IdsOk (filePass s l) := by
  induction l with
  | nil => intro s h; exact h
  | cons e rest ih => intro s h; exact ih _ (fileStep_idsOk h e)

theorem initState_idsOk : IdsOk initState := by
  constructor
  · rfl
  · intro i hi
    simp only [initState, List.length_singleton] at hi
    have h0 : i = 0 := Nat.lt_one_iff.1 hi
    subst h0
    rfl

theorem buildNodes_idsOk (entries : List Entry) : IdsOk (buildNodes entries) :=
  filePass_idsOk _ _ (dirPass_idsOk _ _ initState_idsOk)

theorem dirStep_mapOk {s : GenState} (h : MapOk s) (e : Entry) :
    MapOk (dirStep s e) := by
  by_cases ht : e.type = EType.tree
  · intro kv hkv
    simp only [dirStep, if_pos ht, List.mem_cons] at hkv
    rcases hkv with hkv | hkv
    · subst hkv
      constructor
      · simp [dirStep, if_pos ht]
      · simp only [dirStep, if_pos ht]
        rw [nodeAt_append_self]
    · obtain ⟨hlt, hp⟩ := h kv hkv
      constructor
      · simp only [dirStep, if_pos ht, List.length_append, List.length_cons,
          List.length_nil]
        omega
      · simp only [dirStep, if_pos ht]
        rw [nodeAt_append_left _ hlt]
        exact hp
  · simpa [dirStep, if_neg ht] using h

theorem fileStep_mapOk {s : GenState} (h : MapOk s) (e : Entry) :
    MapOk (fileStep s e) := by
  by_cases ht : e.type = EType.blob
  · intro kv hkv
    simp only [fileStep, if_pos ht] at hkv
    obtain ⟨hlt, hp⟩ := h kv hkv
    constructor
    · simp only [fileStep, if_pos ht, List.length_append, List.length_cons,
        List.length_nil]
      omega
    · simp only [fileStep, if_pos ht]
      rw [nodeAt_append_left _ hlt]
      exact hp
  · simpa [fileStep, if_neg ht] using h

theorem dirPass_mapOk (l : List Entry) : ∀ s : GenState, MapOk s →
    MapOk (dirPass s l) := by
  induction l with
  | nil => intro s h; exact h
  | cons e rest ih => intro s h; exact ih _ (dirStep_mapOk h e)

theorem filePass_mapOk (l : List Entry) : ∀ s : GenState, MapOk s →
    MapOk (filePass s l) := by
  induction l with
  | nil => intro s h; exact h
  | cons e rest ih => intro s h; exact ih _ (fileStep_mapOk h e)

theorem initState_mapOk : MapOk initState := by
  intro kv hkv
  simp only [initState, List.mem_singleton] at hkv
  subst hkv
  exact ⟨Nat.zero_lt_one, rfl⟩

theorem buildNodes_mapOk (entries : List Entry) : MapOk (buildNodes entries) :=
  filePass_mapOk _ _ (dirPass_mapOk _ _ initState_mapOk)

/-! ## The state after both passes -/

theorem dirs_files_length (l : List Entry) :
    (dirsOf l).length + (filesOf l).length = l.length := by
  induction l with
  | nil => rfl
  | cons e rest ih =>
    cases h : e.type
    · have h1 : dirsOf (e :: rest) = e :: dirsOf rest := by
        simp [dirsOf, List.filter_cons, h]
      have h2 : filesOf (e :: rest) = filesOf rest := by
        simp [filesOf, List.filter_cons, h]
      rw [h1, h2, List.length_cons, List.length_cons]
      omega
    · have h1 : dirsOf (e :: rest) = dirsOf rest := by
        simp [dirsOf, List.filter_cons, h]
      have h2 : filesOf (e :: rest) = e :: filesOf rest := by
        simp [filesOf, List.filter_cons, h]
      rw [h1, h2, List.length_cons, List.length_cons]
      omega

theorem mem_dirsOf {l : List Entry} {e : Entry} (h : e ∈ dirsOf l) :
    e ∈ l ∧ e.type = EType.tree := by
  have := List.mem_filter.1 h
  refine ⟨this.1, ?_⟩
  have hb := this.2
  cases ht : e.type <;> simp_all

theorem mem_filesOf {l : List Entry} {e : Entry} (h : e ∈ filesOf l) :
    e ∈ l ∧ e.type = EType.blob := by
  have := List.mem_filter.1 h
  refine ⟨this.1, ?_⟩
  have hb := this.2
  cases ht : e.type <;> simp_all

theorem buildNodes_tp (entries : List Entry) :
    (buildNodes entries).nodes.map (fun n => (n.t, n.p)) =
      ("r", ([] : List String)) ::
        ((dirsOf (sortEntries entries)).map (fun e => ("d", e.path)) ++
         (filesOf (sortEntries entries)).map (fun e => ("f", e.path))) := by
  unfold buildNodes
  rw [filePass_tp, dirPass_tp]
  simp [initState, rootNode]

theorem buildNodes_dirMap (entries : List Entry) :
    (buildNodes entries).dirMap =
      bindingsFor 1 (dirsOf (sortEntries entries)) ++ [([], 0)] := by
  unfold buildNodes
  rw [filePass_dirMap, dirPass_dirMap]
  simp [initState]

theorem buildNodes_length (entries : List Entry) :
    (buildNodes entries).nodes.length =
      1 + (dirsOf (sortEntries entries)).length +
        (filesOf (sortEntries entries)).length := by
  unfold buildNodes
  rw [filePass_length, dirPass_length]
  simp [initState]

theorem buildNodes_nodes_length (entries : List Entry) :
    (buildNodes entries).nodes.length = 1 + entries.length := by
  rw [buildNodes_length]
  have h := dirs_files_length (sortEntries entries)
  have hp : (sortEntries entries).length = entries.length :=
    (sortEntries_perm entries).length_eq
  omega

theorem dirPass_nodeAt (l : List Entry) : ∀ s : GenState, ∀ i < s.nodes.length,
    nodeAt (dirPass s l).nodes i = nodeAt s.nodes i := by
  induction l with
  | nil => intro s i hi; rfl
  | cons e rest ih =>
    intro s i hi
    show nodeAt (dirPass (dirStep s e) rest).nodes i = _
    by_cases h : e.type = EType.tree
    · have hlen : i < (dirStep s e).nodes.length := by
        simp only [dirStep, if_pos h, List.length_append, List.length_cons,
          List.length_nil]
        omega
      rw [ih _ i hlen]
      simp only [dirStep, if_pos h]
      exact nodeAt_append_left _ hi
    · have hstep : dirStep s e = s := by simp [dirStep, if_neg h]
      rw [hstep] at *
      exact ih _ i hi

theorem filePass_nodeAt (l : List Entry) : ∀ s : GenState, ∀ i < s.nodes.length,
    nodeAt (filePass s l).nodes i = nodeAt s.nodes i := by
  induction l with
  | nil => intro s i hi; rfl
  | cons e rest ih =>
    intro s i hi
    show nodeAt (filePass (fileStep s e) rest).nodes i = _
    by_cases h : e.type = EType.blob
    · have hlen : i < (fileStep s e).nodes.length := by
        simp only [fileStep, if_pos h, List.length_append, List.length_cons,
          List.length_nil]
        omega
      rw [ih _ i hlen]
      simp only [fileStep, if_pos h]
      exact nodeAt_append_left _ hi
    · have hstep : fileStep s e = s := by simp [fileStep, if_neg h]
      rw [hstep] at *
      exact ih _ i hi

theorem buildNodes_node_zero (entries : List Entry) :
    nodeAt (buildNodes entries).nodes 0 = rootNode := by
  unfold buildNodes
  have h1 : (0 : Nat) < initState.nodes.length := by simp [initState]
  have h2 : (0 : Nat) < (dirPass initState (sortEntries entries)).nodes.length := by
    rw [dirPass_length]
    simp [initState]
  rw [filePass_nodeAt _ _ _ h2, dirPass_nodeAt _ _ _ h1]
  rfl

theorem nodeAt_tp {ns : List Node} {i : Nat} (hi : i < ns.length) :
    (ns.map (fun n => (n.t, n.p)))[i]? =
      some ((nodeAt ns i).t, (nodeAt ns i).p) := by
  rw [List.getElem?_map, List.getElem?_eq_getElem hi]
  simp [nodeAt, List.getD_eq_getElem?_getD, List.getElem?_eq_getElem hi]

theorem buildNodes_node_dir (entries : List Entry) {j : Nat}
    (hj : j < (dirsOf (sortEntries entries)).length) :
    (nodeAt (buildNodes entries).nodes (j + 1)).t = "d" ∧
    (nodeAt (buildNodes entries).nodes (j + 1)).p =
      (dirsOf (sortEntries entries))[j].path := by
  have hlen := buildNodes_length entries
  have hi : j + 1 < (buildNodes entries).nodes.length := by omega
  have h1 := nodeAt_tp hi
  rw [buildNodes_tp, List.getElem?_cons_succ,
    List.getElem?_append_left (by simpa using hj), List.getElem?_map,
    List.getElem?_eq_getElem hj] at h1
  simp only [Option.map_some', Option.some.injEq, Prod.ext_iff] at h1
  exact ⟨h1.1.symm, h1.2.symm⟩

theorem buildNodes_node_file (entries : List Entry) {j : Nat}
    (hj : j < (filesOf (sortEntries entries)).length) :
    (nodeAt (buildNodes entries).nodes
        ((dirsOf (sortEntries entries)).length + j + 1)).t = "f" ∧
    (nodeAt (buildNodes entries).nodes
        ((dirsOf (sortEntries entries)).length + j + 1)).p =
      (filesOf (sortEntries entries))[j].path := by
  have hlen := buildNodes_length entries
  have hi : (dirsOf (sortEntries entries)).length + j + 1 <
      (buildNodes entries).nodes.length := by omega
  have h1 := nodeAt_tp hi
  rw [buildNodes_tp, List.getElem?_cons_succ,
    List.getElem?_append_right (by simp), List.getElem?_map] at h1
  have hidx : (dirsOf (sortEntries entries)).length + j -
      ((dirsOf (sortEntries entries)).map (fun e => ("d", e.path))).length = j := by
    simp
  rw [hidx, List.getElem?_eq_getElem hj] at h1
  simp only [Option.map_some', Option.some.injEq, Prod.ext_iff] at h1
  exact ⟨h1.1.symm, h1.2.symm⟩

/-- Every non-root node's path is the path of some sorted entry. -/
theorem buildNodes_node_entry (entries : List Entry) {i : Nat} (h1 : 1 ≤ i)
    (hi : i < (buildNodes entries).nodes.length) :
    ∃ e ∈ sortEntries entries,
      (nodeAt (buildNodes entries).nodes i).p = e.path := by
  have hlen := buildNodes_length entries
  rcases Nat.lt_or_ge i (1 + (dirsOf (sortEntries entries)).length) with hc | hc
  · obtain ⟨m, rfl⟩ : ∃ m, i = m + 1 := ⟨i - 1, by omega⟩
    have hm : m < (dirsOf (sortEntries entries)).length := by omega
    refine ⟨(dirsOf (sortEntries entries))[m], ?_, (buildNodes_node_dir entries hm).2⟩
    exact (mem_dirsOf (List.getElem_mem hm)).1
  · obtain ⟨j, hij⟩ : ∃ j, i = (dirsOf (sortEntries entries)).length + j + 1 :=
      ⟨i - (dirsOf (sortEntries entries)).length - 1, by omega⟩
    subst hij
    have hjf : j < (filesOf (sortEntries entries)).length := by omega
    refine ⟨(filesOf (sortEntries entries))[j], ?_,
      (buildNodes_node_file entries hjf).2⟩
    exact (mem_filesOf (List.getElem_mem hjf)).1

/-- The sorted directory block is itself sorted by path. -/
theorem dirsOf_sorted_paths (entries : List Entry) :
    List.Pairwise (fun a b => pathLe a.path b.path = true)
      (dirsOf (sortEntries entries)) := by
  have hp := sortEntries_pairwise entries
  have hsub : (dirsOf (sortEntries entries)).Sublist (sortEntries entries) :=
    List.filter_sublist _
  have hpd := List.Pairwise.sublist hsub hp
  refine hpd.imp_of_mem ?_
  intro a b ha hb hle
  have hta := (mem_dirsOf ha).2
  have htb := (mem_dirsOf hb).2
  simpa [entryLe, hta, htb] using hle

/-! ## The parent lookup: bounds and success -/

/-- When every entry path is nonempty, a successful parent lookup for
node `i` always lands strictly below `i`: parents precede children in
the generated order. -/
theorem lookup_parent_lt (entries : List Entry)
    (hne : ∀ e ∈ entries, e.path ≠ []) {i v : Nat}
    (h1 : 1 ≤ i) (hi : i < (buildNodes entries).nodes.length)
    (hv : lookupMap (buildNodes entries).dirMap
      (parentKey (nodeAt (buildNodes entries).nodes i).p) = some v) :
    v < i := by
  have hlen := buildNodes_length entries
  have hmem := lookupMap_mem hv
  rw [buildNodes_dirMap] at hmem
  rcases List.mem_append.1 hmem with hmem | hmem
  · obtain ⟨j, hj, hveq, hpath⟩ := mem_bindingsFor hmem
    by_contra hge
    push_neg at hge
    rcases Nat.lt_or_ge i (1 + (dirsOf (sortEntries entries)).length) with hc | hc
    · -- node i is a directory node
      obtain ⟨m, rfl⟩ : ∃ m, i = m + 1 := ⟨i - 1, by omega⟩
      have hm : m < (dirsOf (sortEntries entries)).length := by omega
      have hpm := (buildNodes_node_dir entries hm).2
      rw [hpm] at hpath
      have hmne : (dirsOf (sortEntries entries))[m].path ≠ [] := by
        have hmem2 := (mem_dirsOf (List.getElem_mem hm)).1
        exact hne _ (((sortEntries_perm entries).mem_iff).1 hmem2)
      have hjm : m ≤ j := by omega
      rcases Nat.eq_or_lt_of_le hjm with heq | hlt
      · -- the binding would be the node's own path
        subst heq
        exact parentKey_ne _ hmne hpath.symm
      · -- a later directory: its path is ≥ the node's path, yet equals
        -- the node's parent key, which is strictly below it
        have hsorted := List.pairwise_iff_getElem.1 (dirsOf_sorted_paths entries)
          m j hm hj hlt
        have hple : pathLe ((dirsOf (sortEntries entries))[m].path)
            ((dirsOf (sortEntries entries))[j].path) = true := hsorted
        rw [hpath] at hple
        have hple2 := pathLe_dropLast ((dirsOf (sortEntries entries))[m].path)
        have := pathLe_antisymm hple2 hple
        exact parentKey_ne _ hmne this
    · -- node i is a file node: every directory binding is below it
      omega
  · -- the root binding
    simp only [List.mem_singleton, Prod.ext_iff] at hmem
    omega

/-- Under well-formedness the parent lookup of every non-root node
succeeds. -/
theorem lookup_parent_exists (entries : List Entry) (hwf : WellFormed entries)
    {i : Nat} (h1 : 1 ≤ i) (hi : i < (buildNodes entries).nodes.length) :
    ∃ v, lookupMap (buildNodes entries).dirMap
      (parentKey (nodeAt (buildNodes entries).nodes i).p) = some v := by
  obtain ⟨e, he, hpe⟩ := buildNodes_node_entry entries h1 hi
  have heE : e ∈ entries := ((sortEntries_perm entries).mem_iff).1 he
  rw [buildNodes_dirMap, hpe]
  rcases hwf.2 e heE with hroot | ⟨d, hd, hdt, hdp⟩
  · -- top-level entry: the lookup falls through to the root binding
    rw [hroot]
    rw [lookupMap_append_of_not_mem]
    · exact ⟨0, by simp [lookupMap]⟩
    · intro kv hkv
      obtain ⟨j, hj, hveq, hpath⟩ := mem_bindingsFor hkv
      rw [← hpath]
      have hmem2 := (mem_dirsOf (List.getElem_mem hj)).1
      exact hwf.1 _ (((sortEntries_perm entries).mem_iff).1 hmem2)
  · -- the parent directory is listed: its binding is in the map
    have hdS : d ∈ sortEntries entries := ((sortEntries_perm entries).mem_iff).2 hd
    have hdD : d ∈ dirsOf (sortEntries entries) :=
      List.mem_filter.2 ⟨hdS, by simp [hdt]⟩
    obtain ⟨j, hj, hjd⟩ := List.mem_iff_getElem.1 hdD
    have hb := @bindingsFor_mem (dirsOf (sortEntries entries)) 1 j hj
    rw [hjd, hdp] at hb
    obtain ⟨w, hw⟩ := lookupMap_isSome_of_mem (List.mem_append_left _ hb)
    exact ⟨w, hw⟩

/-! ## The edge lists -/

theorem mem_range'_one {c n : Nat} : c ∈ List.range' 1 n ↔ 1 ≤ c ∧ c < 1 + n := by
  rw [List.mem_range']
  constructor
  · rintro ⟨i, hi, rfl⟩
    omega
  · rintro ⟨h1, h2⟩
    exact ⟨c - 1, by omega, by omega⟩

theorem mem_buildEdges {ns : List Node} {m : List (List String × Nat)} {c q : Nat} :
    (c, q) ∈ buildEdges ns m ↔
      1 ≤ c ∧ c < 1 + (ns.length - 1) ∧
        lookupMap m (parentKey (nodeAt ns c).p) = some q := by
  unfold buildEdges
  rw [List.mem_filterMap]
  constructor
  · rintro ⟨i, hi, hf⟩
    rw [mem_range'_one] at hi
    cases hl : lookupMap m (parentKey (nodeAt ns i).p) with
    | none => rw [hl] at hf; simp at hf
    | some w =>
      rw [hl] at hf
      simp only [Option.some.injEq, Prod.ext_iff] at hf
      obtain ⟨rfl, rfl⟩ := hf
      exact ⟨hi.1, hi.2, hl⟩
  · rintro ⟨h1, h2, hl⟩
    exact ⟨c, mem_range'_one.2 ⟨h1, h2⟩, by rw [hl]⟩

theorem mem_buildTrimmedEdges {ns : List Node} {m : List (List String × Nat)}
    {c q : Nat} :
    (c, q) ∈ buildTrimmedEdges ns m ↔
      1 ≤ c ∧ c < 1 + (ns.length - 1) ∧ q < ns.length ∧
        lookupMap m (parentKey (nodeAt ns c).p) = some q := by
  unfold buildTrimmedEdges
  rw [List.mem_filterMap]
  constructor
  · rintro ⟨i, hi, hf⟩
    rw [mem_range'_one] at hi
    cases hl : lookupMap m (parentKey (nodeAt ns i).p) with
    | none => rw [hl] at hf; simp at hf
    | some w =>
      rw [hl] at hf
      have hf2 : (if w < ns.length then some (i, w) else none) = some (c, q) := hf
      by_cases hb : w < ns.length
      · rw [if_pos hb] at hf2
        simp only [Option.some.injEq, Prod.ext_iff] at hf2
        obtain ⟨rfl, rfl⟩ := hf2
        exact ⟨hi.1, hi.2, hb, hl⟩
      · rw [if_neg hb] at hf2
        simp at hf2
  · rintro ⟨h1, h2, hb, hl⟩
    refine ⟨c, mem_range'_one.2 ⟨h1, h2⟩, ?_⟩
    rw [hl]
    show (if q < ns.length then some (c, q) else none) = some (c, q)
    rw [if_pos hb]

theorem length_filterMap_of_all_some {α β : Type} (l : List α) (f : α → Option β)
    (h : ∀ a ∈ l, (f a).isSome) : (l.filterMap f).length = l.length := by
  induction l with
  | nil => rfl
  | cons a rest ih =>
    have ha := h a (List.mem_cons_self _ _)
    cases hf : f a with
    | none => rw [hf] at ha; simp at ha
    | some b =>
      rw [List.filterMap_cons, hf]
      simp only [List.length_cons]
      rw [ih fun x hx => h x (List.mem_cons_of_mem _ hx)]

/-! ## The generator branches -/

theorem generate_of_le (entries : List Entry)
    (h : (buildNodes entries).nodes.length ≤ MAX_NODES) :
    generate entries = ((buildNodes entries).nodes,
      buildEdges (buildNodes entries).nodes (buildNodes entries).dirMap) := by
  simp only [generate]
  rw [if_neg (by omega)]

theorem generate_of_gt (entries : List Entry)
    (h : MAX_NODES < (buildNodes entries).nodes.length) :
    generate entries = ((buildNodes entries).nodes.take MAX_NODES,
      buildTrimmedEdges ((buildNodes entries).nodes.take MAX_NODES)
        (buildNodes entries).dirMap) := by
  simp only [generate]
  rw [if_pos (by omega)]

theorem nodeAt_take {ns : List Node} {k i : Nat} (h : i < k) :
    nodeAt (ns.take k) i = nodeAt ns i := by
  simp [nodeAt, List.getD_eq_getElem?_getD, List.getElem?_take, h]

theorem generate_fst (entries : List Entry) :
    (generate entries).1 = (buildNodes entries).nodes.take MAX_NODES := by
  rcases le_or_lt (buildNodes entries).nodes.length MAX_NODES with h | h
  · rw [generate_of_le entries h]
    exact (List.take_of_length_le h).symm
  · rw [generate_of_gt entries h]

theorem generate_fst_length (entries : List Entry) :
    (generate entries).1.length =
      min MAX_NODES (buildNodes entries).nodes.length := by
  rw [generate_fst, List.length_take]

/-- Each output node (kept after a possible trim) is the raw node at
the same index. -/
theorem generate_nodeAt (entries : List Entry) {i : Nat}
    (hi : i < (generate entries).1.length) :
    nodeAt (generate entries).1 i = nodeAt (buildNodes entries).nodes i := by
  rw [generate_fst_length] at hi
  rw [generate_fst]
  exact nodeAt_take (by omega)

/-- Every output edge records a successful parent lookup for a
non-root kept child, with the parent inside the raw node list. -/
theorem generate_edge_mem (entries : List Entry) {c q : Nat}
    (h : (c, q) ∈ (generate entries).2) :
    1 ≤ c ∧ c < (generate entries).1.length ∧
      q < (buildNodes entries).nodes.length ∧
      lookupMap (buildNodes entries).dirMap
        (parentKey (nodeAt (buildNodes entries).nodes c).p) = some q := by
  have hmapOk := buildNodes_mapOk entries
  rcases le_or_lt (buildNodes entries).nodes.length MAX_NODES with hle | hgt
  · rw [generate_of_le entries hle] at h
    obtain ⟨h1, h2, hl⟩ := mem_buildEdges.1 h
    have hlenpos : 0 < (buildNodes entries).nodes.length := by
      have := buildNodes_nodes_length entries
      omega
    have hc : c < (buildNodes entries).nodes.length := by omega
    have hq := (hmapOk _ (lookupMap_mem hl)).1
    rw [generate_of_le entries hle]
    exact ⟨h1, hc, hq, hl⟩
  · rw [generate_of_gt entries hgt] at h
    obtain ⟨h1, h2, hb, hl⟩ := mem_buildTrimmedEdges.1 h
    have hklen : ((buildNodes entries).nodes.take MAX_NODES).length = MAX_NODES := by
      rw [List.length_take]
      omega
    rw [hklen] at h2 hb
    have hc : c < MAX_NODES := by
      have : (0 : Nat) < MAX_NODES := by norm_num [MAX_NODES]
      omega
    rw [nodeAt_take hc] at hl
    rw [generate_of_gt entries hgt]
    simp only [hklen]
    exact ⟨h1, hc, by omega, hl⟩

/-! ## The pid field -/

/-- The `pid` determined by a parent lookup whose result indices are
the parent node ids. -/
def pidFromLookup : Option Nat → Option String
  | some j => if j ≠ 0 then some (toString j) else none
  | none => none

theorem fileStep_new_pid {s : GenState} (hids : IdsOk s) (hmap : MapOk s)
    {e : Entry} (h : e.type = EType.blob) :
    (nodeAt (fileStep s e).nodes s.nodes.length).pid =
      pidFromLookup (lookupMap s.dirMap (parentKey e.path)) := by
  simp only [fileStep, if_pos h]
  rw [nodeAt_append_self]
  cases hl : lookupMap s.dirMap (parentKey e.path) with
  | none => simp [pidFromLookup, hl]
  | some v =>
    have hv := (hmap _ (lookupMap_mem hl)).1
    have hid := hids.2 v hv
    simp [pidFromLookup, hl, hid]

theorem dirStep_new_pid {s : GenState} (hids : IdsOk s) (hmap : MapOk s)
    {e : Entry} (h : e.type = EType.tree) :
    (nodeAt (dirStep s e).nodes s.nodes.length).pid =
      pidFromLookup (lookupMap s.dirMap (parentKey e.path)) := by
  simp only [dirStep, if_pos h]
  rw [nodeAt_append_self]
  cases hl : lookupMap s.dirMap (parentKey e.path) with
  | none => simp [pidFromLookup, hl]
  | some v =>
    have hv := (hmap _ (lookupMap_mem hl)).1
    have hid := hids.2 v hv
    simp [pidFromLookup, hl, hid]

theorem getD_of_lt {α : Type} {l : List α} {j : Nat} (h : j < l.length) (d : α) :
    l.getD j d = l[j] := by
  rw [List.getD_eq_getElem?_getD, List.getElem?_eq_getElem h]
  rfl

theorem filePass_pid (l : List Entry) : ∀ s : GenState, IdsOk s → MapOk s →
    ∀ j (hj : j < (filesOf l).length),
    (nodeAt (filePass s l).nodes (s.nodes.length + j)).pid =
      pidFromLookup (lookupMap s.dirMap
        (parentKey ((filesOf l).getD j default).path)) := by
  induction l with
  | nil =>
    intro s _ _ j hj
    simp [filesOf] at hj
  | cons e rest ih =>
    intro s hids hmap j hj
    by_cases h : e.type = EType.blob
    · have hfs : filesOf (e :: rest) = e :: filesOf rest := by
        simp [filesOf, List.filter_cons, h]
      rw [hfs] at hj ⊢
      cases j with
      | zero =>
        show (nodeAt (filePass (fileStep s e) rest).nodes (s.nodes.length + 0)).pid = _
        have hlen : s.nodes.length + 0 < (fileStep s e).nodes.length := by
          simp [fileStep, if_pos h]
        rw [filePass_nodeAt _ _ _ hlen]
        simpa using fileStep_new_pid hids hmap h
      | succ j' =>
        have hj' : j' < (filesOf rest).length := by simpa using Nat.lt_of_succ_lt_succ hj
        have hstep : (fileStep s e).nodes.length = s.nodes.length + 1 := by
          simp [fileStep, if_pos h]
        have hmap2 : (fileStep s e).dirMap = s.dirMap := by
          simp [fileStep, if_pos h]
        have := ih (fileStep s e) (fileStep_idsOk hids e) (fileStep_mapOk hmap e) j' hj'
        rw [hstep, hmap2] at this
        show (nodeAt (filePass (fileStep s e) rest).nodes
          (s.nodes.length + (j' + 1))).pid = _
        have harith : s.nodes.length + (j' + 1) = s.nodes.length + 1 + j' := by omega
        rw [harith, this]
        simp [List.getD_cons_succ]
    · have hfs : filesOf (e :: rest) = filesOf rest := by
        have hb : (e.type == EType.blob) = false := by
          cases he : e.type <;> simp_all
        simp [filesOf, List.filter_cons, hb]
      have hstep : fileStep s e = s := by simp [fileStep, if_neg h]
      rw [hfs] at hj ⊢
      show (nodeAt (filePass (fileStep s e) rest).nodes (s.nodes.length + j)).pid = _
      rw [hstep]
      exact ih s hids hmap j hj

theorem dirPass_pid (l : List Entry) : ∀ s : GenState, IdsOk s → MapOk s →
    ∀ j (hj : j < (dirsOf l).length),
    (nodeAt (dirPass s l).nodes (s.nodes.length + j)).pid =
      pidFromLookup (lookupMap
        (bindingsFor s.nodes.length ((dirsOf l).take j) ++ s.dirMap)
        (parentKey ((dirsOf l).getD j default).path)) := by
  induction l with
  | nil =>
    intro s _ _ j hj
    simp [dirsOf] at hj
  | cons e rest ih =>
    intro s hids hmap j hj
    by_cases h : e.type = EType.tree
    · have hds : dirsOf (e :: rest) = e :: dirsOf rest := by
        simp [dirsOf, List.filter_cons, h]
      rw [hds] at hj ⊢
      cases j with
      | zero =>
        show (nodeAt (dirPass (dirStep s e) rest).nodes (s.nodes.length + 0)).pid = _
        have hlen : s.nodes.length + 0 < (dirStep s e).nodes.length := by
          simp [dirStep, if_pos h]
        rw [dirPass_nodeAt _ _ _ hlen]
        simpa [bindingsFor] using dirStep_new_pid hids hmap h
      | succ j' =>
        have hj' : j' < (dirsOf rest).length := by simpa using Nat.lt_of_succ_lt_succ hj
        have hstep : (dirStep s e).nodes.length = s.nodes.length + 1 := by
          simp [dirStep, if_pos h]
        have hmap2 : (dirStep s e).dirMap = (e.path, s.nodes.length) :: s.dirMap := by
          simp [dirStep, if_pos h]
        have := ih (dirStep s e) (dirStep_idsOk hids e) (dirStep_mapOk hmap e) j' hj'
        rw [hstep, hmap2] at this
        show (nodeAt (dirPass (dirStep s e) rest).nodes
          (s.nodes.length + (j' + 1))).pid = _
        have harith : s.nodes.length + (j' + 1) = s.nodes.length + 1 + j' := by omega
        rw [harith, this]
        have htake : (e :: dirsOf rest).take (j' + 1) = e :: (dirsOf rest).take j' := by
          simp [List.take_cons]
        rw [htake, bindingsFor, List.append_assoc]
        simp [List.getD_cons_succ]
    · have hds : dirsOf (e :: rest) = dirsOf rest := by
        have hb : (e.type == EType.tree) = false := by
          cases he : e.type <;> simp_all
        simp [dirsOf, List.filter_cons, hb]
      have hstep : dirStep s e = s := by simp [dirStep, if_neg h]
      rw [hds] at hj ⊢
      show (nodeAt (dirPass (dirStep s e) rest).nodes (s.nodes.length + j)).pid = _
      rw [hstep]
      exact ih s hids hmap j hj

theorem buildNodes_pid_dir (entries : List Entry) {m : Nat}
    (hm : m < (dirsOf (sortEntries entries)).length) :
    (nodeAt (buildNodes entries).nodes (m + 1)).pid =
      pidFromLookup (lookupMap
        (bindingsFor 1 ((dirsOf (sortEntries entries)).take m) ++ [([], 0)])
        (parentKey (dirsOf (sortEntries entries))[m].path)) := by
  unfold buildNodes
  have hids := initState_idsOk
  have hmap := initState_mapOk
  have hd := dirPass_pid (sortEntries entries) initState hids hmap m hm
  have hinit : initState.nodes.length = 1 := rfl
  rw [hinit] at hd
  have hlen : m + 1 < (dirPass initState (sortEntries entries)).nodes.length := by
    rw [dirPass_length, hinit]
    omega
  rw [filePass_nodeAt _ _ _ hlen]
  have harith : (1 : Nat) + m = m + 1 := by omega
  rw [harith] at hd
  rw [hd, getD_of_lt hm]
  rfl

theorem buildNodes_pid_file (entries : List Entry) {j : Nat}
    (hj : j < (filesOf (sortEntries entries)).length) :
    (nodeAt (buildNodes entries).nodes
        ((dirsOf (sortEntries entries)).length + j + 1)).pid =
      pidFromLookup (lookupMap (buildNodes entries).dirMap
        (parentKey (filesOf (sortEntries entries))[j].path)) := by
  have hids := dirPass_idsOk (sortEntries entries) initState initState_idsOk
  have hmap := dirPass_mapOk (sortEntries entries) initState initState_mapOk
  have hlen : (dirPass initState (sortEntries entries)).nodes.length =
      1 + (dirsOf (sortEntries entries)).length := by
    rw [dirPass_length]
    rfl
  have hf := filePass_pid (sortEntries entries) _ hids hmap j hj
  rw [hlen] at hf
  have harith : 1 + (dirsOf (sortEntries entries)).length + j =
      (dirsOf (sortEntries entries)).length + j + 1 := by omega
  rw [harith] at hf
  have hmapeq : (dirPass initState (sortEntries entries)).dirMap =
      (buildNodes entries).dirMap := by
    unfold buildNodes
    rw [filePass_dirMap]
  rw [← hmapeq, ← getD_of_lt hj default]
  exact hf

/-- The parent lookup a directory node performed against the partial
map gives the same answer as against the final map: the bindings
added later are for paths sorting at or above the node's own path,
hence never equal to its parent key. -/
theorem lookup_split (ds : List Entry) (m : Nat) (key : List String)
    (hkeys : ∀ j, (hj : j < ds.length) → m ≤ j → ds[j].path ≠ key) :
    lookupMap (bindingsFor 1 ds ++ [([], 0)]) key =
      lookupMap (bindingsFor 1 (ds.take m) ++ [([], 0)]) key := by
  conv_lhs => rw [← List.take_append_drop m ds]
  rw [bindingsFor_append, List.append_assoc]
  rw [lookupMap_append_of_not_mem]
  intro kv hkv
  obtain ⟨j, hj, hveq, hpath⟩ := mem_bindingsFor hkv
  rw [← hpath]
  have hjlen : j < ds.length - m := by simpa using hj
  have hget : (ds.drop m)[j] = ds[m + j] := List.getElem_drop _
  rw [hget]
  exact hkeys (m + j) (by omega) (by omega)

theorem lookup_take_eq (entries : List Entry)
    (hne : ∀ e ∈ entries, e.path ≠ []) {m : Nat}
    (hm : m < (dirsOf (sortEntries entries)).length) :
    lookupMap (bindingsFor 1 ((dirsOf (sortEntries entries)).take m) ++ [([], 0)])
        (parentKey (dirsOf (sortEntries entries))[m].path) =
      lookupMap (buildNodes entries).dirMap
        (parentKey (dirsOf (sortEntries entries))[m].path) := by
  rw [buildNodes_dirMap]
  refine (lookup_split (dirsOf (sortEntries entries)) m _ ?_).symm
  intro j hj hmj heq
  have hmne : (dirsOf (sortEntries entries))[m].path ≠ [] := by
    have hmem2 := (mem_dirsOf (List.getElem_mem hm)).1
    exact hne _ (((sortEntries_perm entries).mem_iff).1 hmem2)
  rcases Nat.eq_or_lt_of_le hmj with hj0 | hjlt
  · subst hj0
    exact parentKey_ne _ hmne heq.symm
  · have hsorted := List.pairwise_iff_getElem.1 (dirsOf_sorted_paths entries)
      m j hm hj hjlt
    rw [heq] at hsorted
    have hple2 := pathLe_dropLast ((dirsOf (sortEntries entries))[m].path)
    have := pathLe_antisymm hple2 hsorted
    exact parentKey_ne _ hmne this

/-- The `pid` of every non-root raw node is determined by its parent
lookup in the final directory map. -/
theorem buildNodes_pid (entries : List Entry)
    (hne : ∀ e ∈ entries, e.path ≠ []) {i : Nat} (h1 : 1 ≤ i)
    (hi : i < (buildNodes entries).nodes.length) :
    (nodeAt (buildNodes entries).nodes i).pid =
      pidFromLookup (lookupMap (buildNodes entries).dirMap
        (parentKey (nodeAt (buildNodes entries).nodes i).p)) := by
  have hlen := buildNodes_length entries
  rcases Nat.lt_or_ge i (1 + (dirsOf (sortEntries entries)).length) with hc | hc
  · obtain ⟨m, rfl⟩ : ∃ m, i = m + 1 := ⟨i - 1, by omega⟩
    have hm : m < (dirsOf (sortEntries entries)).length := by omega
    rw [(buildNodes_node_dir entries hm).2, buildNodes_pid_dir entries hm,
      lookup_take_eq entries hne hm]
  · obtain ⟨j, rfl⟩ : ∃ j, i = (dirsOf (sortEntries entries)).length + j + 1 :=
      ⟨i - (dirsOf (sortEntries entries)).length - 1, by omega⟩
    have hj : j < (filesOf (sortEntries entries)).length := by omega
    rw [(buildNodes_node_file entries hj).2, buildNodes_pid_file entries hj]

/-! ## Aggregate facts about the generated output -/

theorem filesOf_sorted_paths (entries : List Entry) :
    List.Pairwise (fun a b => pathLe a.path b.path = true)
      (filesOf (sortEntries entries)) := by
  have hp := sortEntries_pairwise entries
  have hsub : (filesOf (sortEntries entries)).Sublist (sortEntries entries) :=
    List.filter_sublist _
  have hpd := List.Pairwise.sublist hsub hp
  refine hpd.imp_of_mem ?_
  intro a b ha hb hle
  have hta := (mem_filesOf ha).2
  have htb := (mem_filesOf hb).2
  simpa [entryLe, hta, htb] using hle

theorem genEdges_bounds (entries : List Entry) {c q : Nat}
    (h : (c, q) ∈ (generate entries).2) :
    c < (generate entries).1.length ∧ q < (generate entries).1.length := by
  have hc := (generate_edge_mem entries h).2.1
  refine ⟨hc, ?_⟩
  rcases le_or_lt (buildNodes entries).nodes.length MAX_NODES with hle | hgt
  · have hq := (generate_edge_mem entries h).2.2.1
    rw [generate_fst_length]
    omega
  · rw [generate_of_gt entries hgt] at h
    obtain ⟨h1, h2, hb, hl⟩ := mem_buildTrimmedEdges.1 h
    rw [generate_of_gt entries hgt]
    simpa using hb

theorem genEdges_exists_unique (entries : List Entry) (hwf : WellFormed entries)
    {i : Nat} (h1 : 1 ≤ i) (hi : i < (generate entries).1.length) :
    ∃ q, (i, q) ∈ (generate entries).2 ∧
      ∀ q2, (i, q2) ∈ (generate entries).2 → q2 = q := by
  have hraw : i < (buildNodes entries).nodes.length := by
    rw [generate_fst_length] at hi
    omega
  obtain ⟨v, hv⟩ := lookup_parent_exists entries hwf h1 hraw
  have hvlt : v < i := lookup_parent_lt entries hwf.1 h1 hraw hv
  have huniq : ∀ q2, (i, q2) ∈ (generate entries).2 → q2 = v := by
    intro q2 hq2
    have hthis := (generate_edge_mem entries hq2).2.2.2
    rw [hv] at hthis
    exact (Option.some.inj hthis).symm
  refine ⟨v, ?_, huniq⟩
  rcases le_or_lt (buildNodes entries).nodes.length MAX_NODES with hle | hgt
  · rw [generate_of_le entries hle] at hi ⊢
    apply mem_buildEdges.2
    refine ⟨h1, ?_, hv⟩
    simp only at hi
    omega
  · rw [generate_of_gt entries hgt] at hi ⊢
    have hkl : ((buildNodes entries).nodes.take MAX_NODES).length = MAX_NODES := by
      rw [List.length_take]
      omega
    simp only at hi
    rw [hkl] at hi
    apply mem_buildTrimmedEdges.2
    refine ⟨h1, ?_, ?_, ?_⟩
    · rw [hkl]
      omega
    · rw [hkl]
      omega
    · rw [nodeAt_take (show i < MAX_NODES by omega)]
      exact hv

theorem buildEdges_length_of_lookup (ns : List Node)
    (m : List (List String × Nat))
    (h : ∀ i, 1 ≤ i → i < 1 + (ns.length - 1) →
      ∃ v, lookupMap m (parentKey (nodeAt ns i).p) = some v) :
    (buildEdges ns m).length = ns.length - 1 := by
  have hall : ∀ a ∈ List.range' 1 (ns.length - 1),
      (match lookupMap m (parentKey (nodeAt ns a).p) with
        | some parentIdx => some (a, parentIdx)
        | none => none).isSome := by
    intro i hi
    rw [mem_range'_one] at hi
    obtain ⟨v, hv⟩ := h i hi.1 hi.2
    rw [hv]
    rfl
  unfold buildEdges
  rw [length_filterMap_of_all_some _ _ hall, List.length_range']

theorem buildTrimmedEdges_length_of_lookup (ns : List Node)
    (m : List (List String × Nat))
    (h : ∀ i, 1 ≤ i → i < 1 + (ns.length - 1) →
      ∃ v, lookupMap m (parentKey (nodeAt ns i).p) = some v ∧ v < ns.length) :
    (buildTrimmedEdges ns m).length = ns.length - 1 := by
  have hall : ∀ a ∈ List.range' 1 (ns.length - 1),
      (match lookupMap m (parentKey (nodeAt ns a).p) with
        | some parentIdx =>
            if parentIdx < ns.length then some (a, parentIdx) else none
        | none => none).isSome := by
    intro i hi
    rw [mem_range'_one] at hi
    obtain ⟨v, hv, hvlt⟩ := h i hi.1 hi.2
    rw [hv]
    show (if v < ns.length then some (i, v) else none).isSome = true
    rw [if_pos hvlt]
    rfl
  unfold buildTrimmedEdges
  rw [length_filterMap_of_all_some _ _ hall, List.length_range']

theorem genEdges_count (entries : List Entry) (hwf : WellFormed entries) :
    (generate entries).2.length = (generate entries).1.length - 1 := by
  have hlenraw := buildNodes_nodes_length entries
  rcases le_or_lt (buildNodes entries).nodes.length MAX_NODES with hle | hgt
  · rw [generate_of_le entries hle]
    simp only
    apply buildEdges_length_of_lookup
    intro i hi1 hi2
    exact lookup_parent_exists entries hwf hi1 (by omega)
  · rw [generate_of_gt entries hgt]
    simp only
    have hkl : ((buildNodes entries).nodes.take MAX_NODES).length = MAX_NODES := by
      rw [List.length_take]
      omega
    apply buildTrimmedEdges_length_of_lookup
    intro i hi1 hi2
    rw [hkl] at hi2
    have hiMax : i < MAX_NODES := by
      have : (0 : Nat) < MAX_NODES := by norm_num [MAX_NODES]
      omega
    have hiRaw : i < (buildNodes entries).nodes.length := by omega
    rw [nodeAt_take hiMax]
    obtain ⟨v, hv⟩ := lookup_parent_exists entries hwf hi1 hiRaw
    have hvlt := lookup_parent_lt entries hwf.1 hi1 hiRaw hv
    exact ⟨v, hv, by omega⟩

theorem chain_mem_lt {R : Nat → Nat → Prop} (hR : ∀ a b, R a b → b < a) :
    ∀ (l : List Nat) (i : Nat), List.Chain R i l → ∀ x ∈ l, x < i := by
  intro l
  induction l with
  | nil =>
    intro i _ x hx
    simp at hx
  | cons b t ih =>
    intro i hc x hx
    rw [List.chain_cons] at hc
    rcases List.mem_cons.1 hx with rfl | hx2
    · exact hR _ _ hc.1
    · exact lt_trans (ih b hc.2 x hx2) (hR _ _ hc.1)

/-! ## The claims -/

/-- C3: the generated node sequence is index-contiguous and dense:
the nodes array is nonempty with the root node at index 0, and every
serialized node's `id` field equals its position in the array, so the
ids run 0..N-1 with no gaps or duplicates. -/
theorem claim_C3 (entries : List Entry) :
    (generate entries).1 ≠ [] ∧
    nodeAt (generate entries).1 0 = rootNode ∧
    ∀ i < (generate entries).1.length, (nodeAt (generate entries).1 i).id = i := by
  have hlen := buildNodes_nodes_length entries
  have hgl := generate_fst_length entries
  have hpos : 0 < (generate entries).1.length := by
    rw [hgl]
    have : (0 : Nat) < MAX_NODES := by norm_num [MAX_NODES]
    omega
  refine ⟨?_, ?_, ?_⟩
  · intro hnil
    rw [hnil] at hpos
    simp at hpos
  · rw [generate_nodeAt entries hpos, buildNodes_node_zero]
  · intro i hi
    rw [generate_nodeAt entries hi]
    exact (buildNodes_idsOk entries).2 i (by rw [hgl] at hi; omega)

/-- C6: every emitted edge references only nodes present in the final
(possibly trimmed) nodes array: neither its child index nor its
parent index points at or past the end of the array. -/
theorem claim_C6 (entries : List Entry) :
    ∀ e ∈ (generate entries).2,
      e.1 < (generate entries).1.length ∧
      e.2 < (generate entries).1.length := by
  intro e he
  obtain ⟨c, q⟩ := e
  exact genEdges_bounds entries he

/-- C9: parents precede children: every emitted edge
`(childIndex, parentIndex)` has `parentIndex < childIndex`, because
directories are emitted before files and a parent directory's path
sorts before every path in its subtree. -/
theorem claim_C9 (entries : List Entry) (hne : ∀ e ∈ entries, e.path ≠ []) :
    ∀ e ∈ (generate entries).2, e.2 < e.1 := by
  intro e he
  obtain ⟨c, q⟩ := e
  obtain ⟨h1, h2, hq, hl⟩ := generate_edge_mem entries he
  have hraw : c < (buildNodes entries).nodes.length := by
    rw [generate_fst_length] at h2
    omega
  exact lookup_parent_lt entries hne h1 hraw hl

/-- C7: generation is deterministic: identical fetched tree data
yields byte-identical `nodes.js` and `edges.js` contents, and the
traversal order used is one fixed, stable order (the sorted entries
are a permutation of the input, pairwise ordered by the comparator:
directories first, then files, each group by path comparison). -/
theorem claim_C7 (t1 t2 : List Entry) (h : t1 = t2) :
    (nodesContent (generate t1).1 = nodesContent (generate t2).1 ∧
     edgesContent (generate t1).2 = edgesContent (generate t2).2) ∧
    (sortEntries t1).Perm t1 ∧
    List.Pairwise (fun a b => entryLe a b = true) (sortEntries t1) := by
  subst h
  exact ⟨⟨rfl, rfl⟩, sortEntries_perm t1, sortEntries_pairwise t1⟩

/-- C2: for a well-formed fetched tree, the edge list contains
exactly one `(childIndex, parentIndex)` pair per non-root node, and
the edge count equals the node count minus one exactly. -/
theorem claim_C2 (entries : List Entry) (hwf : WellFormed entries) :
    (∀ i, 1 ≤ i → i < (generate entries).1.length →
      ∃ q, (i, q) ∈ (generate entries).2 ∧
        ∀ q2, (i, q2) ∈ (generate entries).2 → q2 = q) ∧
    (generate entries).2.length = (generate entries).1.length - 1 :=
  ⟨fun i h1 hi => genEdges_exists_unique entries hwf h1 hi,
    genEdges_count entries hwf⟩

/-- C4: for a well-formed fetched tree the output is a single rooted
tree: the root (index 0) has no parent edge, every other node has
exactly one parent edge, and following parent links never cycles. -/
theorem claim_C4 (entries : List Entry) (hwf : WellFormed entries) :
    (¬ ∃ q, (0, q) ∈ (generate entries).2) ∧
    (∀ i, 1 ≤ i → i < (generate entries).1.length →
      ∃ q, (i, q) ∈ (generate entries).2 ∧
        ∀ q2, (i, q2) ∈ (generate entries).2 → q2 = q) ∧
    (∀ i l, ¬ List.Chain (fun a b => (a, b) ∈ (generate entries).2) i (l ++ [i])) := by
  refine ⟨?_, fun i h1 hi => genEdges_exists_unique entries hwf h1 hi, ?_⟩
  · rintro ⟨q, hq⟩
    have := (generate_edge_mem entries hq).1
    omega
  · intro i l hchain
    have hR : ∀ a b, (a, b) ∈ (generate entries).2 → b < a := by
      intro a b hab
      obtain ⟨ha1, ha2, hq, hl⟩ := generate_edge_mem entries hab
      have hraw : a < (buildNodes entries).nodes.length := by
        rw [generate_fst_length] at ha2
        omega
      exact lookup_parent_lt entries hwf.1 ha1 hraw hl
    have := chain_mem_lt hR _ _ hchain i (by simp)
    omega

/-- C1: trimming preserves the rooted-tree invariant: when the raw
node list exceeds the cap, any child of an excluded node is excluded
with it (the whole subtree is dropped), and no kept non-root node is
left without a parent link in the rebuilt edge list. -/
theorem claim_C1 (entries : List Entry) (hwf : WellFormed entries)
    (hbig : MAX_NODES < (buildNodes entries).nodes.length) :
    (∀ c q, (c, q) ∈ buildEdges (buildNodes entries).nodes
        (buildNodes entries).dirMap → MAX_NODES ≤ q → MAX_NODES ≤ c) ∧
    (∀ i, 1 ≤ i → i < (generate entries).1.length →
      ∃ q, (i, q) ∈ (generate entries).2) := by
  constructor
  · intro c q hcq hq
    obtain ⟨h1, h2, hl⟩ := mem_buildEdges.1 hcq
    have hraw : c < (buildNodes entries).nodes.length := by omega
    have := lookup_parent_lt entries hwf.1 h1 hraw hl
    omega
  · intro i h1 hi
    obtain ⟨q, hq, _⟩ := genEdges_exists_unique entries hwf h1 hi
    exact ⟨q, hq⟩

/-- C5: the node cap is enforced: every output has at most 2500
nodes; when the raw list is larger, exactly the first 2500 raw nodes
(root, then directories, then files, each group sorted by path) are
kept and the rebuilt edge list references only kept nodes. -/
theorem claim_C5 (entries : List Entry)
    (hbig : MAX_NODES < (buildNodes entries).nodes.length) :
    (∀ es : List Entry, (generate es).1.length ≤ MAX_NODES) ∧
    (generate entries).1.length = MAX_NODES ∧
    (generate entries).1 = (buildNodes entries).nodes.take MAX_NODES ∧
    (buildNodes entries).nodes.map (fun n => (n.t, n.p)) =
      ("r", ([] : List String)) ::
        ((dirsOf (sortEntries entries)).map (fun e => ("d", e.path)) ++
         (filesOf (sortEntries entries)).map (fun e => ("f", e.path))) ∧
    List.Pairwise (fun a b => pathLe a.path b.path = true)
      (dirsOf (sortEntries entries)) ∧
    List.Pairwise (fun a b => pathLe a.path b.path = true)
      (filesOf (sortEntries entries)) ∧
    ((generate entries).2.all fun e =>
      decide (e.1 < MAX_NODES) && decide (e.2 < MAX_NODES)) = true := by
  refine ⟨?_, ?_, generate_fst entries, buildNodes_tp entries,
    dirsOf_sorted_paths entries, filesOf_sorted_paths entries, ?_⟩
  · intro es
    rw [generate_fst_length]
    omega
  · rw [generate_fst_length]
    omega
  · rw [List.all_eq_true]
    intro e he
    obtain ⟨c, q⟩ := e
    have hb := genEdges_bounds entries he
    have hgl : (generate entries).1.length = MAX_NODES := by
      rw [generate_fst_length]
      omega
    rw [hgl] at hb
    simp [hb.1, hb.2]

/-- Case analysis of one script run: either it exits 1 having written
nothing, or the tree request succeeded and it writes exactly the two
data files built from the fetched entries, exiting 0. -/
theorem runScript_cases (args : List String) (repoResp : Option (Nat × String))
    (treeResp : Option (Nat × List Entry)) :
    runScript args repoResp treeResp = ⟨1, []⟩ ∨
      ∃ entries, ghFetchM treeResp = Except.ok entries ∧
        runScript args repoResp treeResp =
          ⟨0, [("nodes.js", nodesContent (generate entries).1),
               ("edges.js", edgesContent (generate entries).2)]⟩ := by
  cases hh : args.head? with
  | none =>
    left
    simp [runScript, hh]
  | some repoArg =>
    by_cases h0 : repoArg = ""
    · left
      simp [runScript, hh, h0]
    · by_cases h1 : (repoArg.splitOn "/").headD "" = "" ∨
          ((repoArg.splitOn "/")[1]?).getD "" = ""
      · left
        simp only [runScript, hh]
        rw [if_neg h0, if_pos h1]
      · cases href : (if ((args[1]?).getD "" ≠ "") then
            Except.ok ((args[1]?).getD "") else ghFetchM repoResp) with
        | error msg =>
          left
          simp only [runScript, hh]
          rw [if_neg h0, if_neg h1, href]
        | ok r =>
          cases ht : ghFetchM treeResp with
          | error msg =>
            left
            simp only [runScript, hh]
            rw [if_neg h0, if_neg h1, href, ht]
          | ok entries =>
            right
            refine ⟨entries, rfl, ?_⟩
            simp only [runScript, hh]
            rw [if_neg h0, if_neg h1, href, ht]

/-- C8: output writing is atomic with respect to failure: a missing
or malformed repo argument, a failed default-branch request (made
when no branch argument is given), or a failed tree request makes
the script exit with status 1 having written neither data file; the
two files are written, together, only after the whole topology was
built from a successful tree response. -/
theorem claim_C8 (args : List String) (repoResp : Option (Nat × String))
    (treeResp : Option (Nat × List Entry)) :
    (runScript args repoResp treeResp = ⟨1, []⟩ ∨
      ∃ entries, ghFetchM treeResp = Except.ok entries ∧
        runScript args repoResp treeResp =
          ⟨0, [("nodes.js", nodesContent (generate entries).1),
               ("edges.js", edgesContent (generate entries).2)]⟩) ∧
    (∀ msg, ghFetchM treeResp = Except.error msg →
      runScript args repoResp treeResp = ⟨1, []⟩) ∧
    ((args[1]?).getD "" = "" →
      ∀ msg, ghFetchM repoResp = Except.error msg →
        runScript args repoResp treeResp = ⟨1, []⟩) ∧
    (args.head? = none → runScript args repoResp treeResp = ⟨1, []⟩) ∧
    (∀ repoArg, args.head? = some repoArg →
      ((repoArg.splitOn "/").headD "" = "" ∨
        ((repoArg.splitOn "/")[1]?).getD "" = "") →
      runScript args repoResp treeResp = ⟨1, []⟩) := by
  refine ⟨runScript_cases args repoResp treeResp, ?_, ?_, ?_, ?_⟩
  · intro msg hmsg
    rcases runScript_cases args repoResp treeResp with h | ⟨es, hok, _⟩
    · exact h
    · rw [hmsg] at hok
      exact absurd hok (by simp)
  · intro hb msg hmsg
    cases hh : args.head? with
    | none => simp [runScript, hh]
    | some repoArg =>
      by_cases h0 : repoArg = ""
      · simp [runScript, hh, h0]
      · by_cases h1 : (repoArg.splitOn "/").headD "" = "" ∨
            ((repoArg.splitOn "/")[1]?).getD "" = ""
        · simp only [runScript, hh]
          rw [if_neg h0, if_pos h1]
        · simp only [runScript, hh]
          rw [if_neg h0, if_neg h1, if_neg (by simp [hb]), hmsg]
  · intro h
    simp [runScript, h]
  · intro repoArg hh h1
    by_cases h0 : repoArg = ""
    · simp [runScript, hh, h0]
    · simp only [runScript, hh]
      rw [if_neg h0, if_pos h1]

/-- C10: a serialized node carries a `pid` exactly when its parent is
found in the directory map and is not the root; when present, `pid`
is the string form of the parent node's id.  Children of the root
carry no `pid`, although the edge list still records their pair with
parent index 0. -/
theorem claim_C10 (entries : List Entry) (hne : ∀ e ∈ entries, e.path ≠ [])
    (i : Nat) (h1 : 1 ≤ i) (hi : i < (generate entries).1.length) :
    (∀ v, lookupMap (buildNodes entries).dirMap
        (parentKey (nodeAt (generate entries).1 i).p) = some v → v ≠ 0 →
      (nodeAt (generate entries).1 i).pid =
        some (toString (nodeAt (generate entries).1 v).id)) ∧
    (lookupMap (buildNodes entries).dirMap
        (parentKey (nodeAt (generate entries).1 i).p) = some 0 →
      (nodeAt (generate entries).1 i).pid = none ∧
        (i, 0) ∈ (generate entries).2) ∧
    (lookupMap (buildNodes entries).dirMap
        (parentKey (nodeAt (generate entries).1 i).p) = none →
      (nodeAt (generate entries).1 i).pid = none) := by
  have hraw : i < (buildNodes entries).nodes.length := by
    rw [generate_fst_length] at hi
    omega
  have hnode := generate_nodeAt entries hi
  have hpid := buildNodes_pid entries hne h1 hraw
  refine ⟨?_, ?_, ?_⟩
  · intro v hv hv0
    rw [hnode] at hv ⊢
    have hvlt : v < i := lookup_parent_lt entries hne h1 hraw hv
    have hvgen : v < (generate entries).1.length := by omega
    have hid : (nodeAt (generate entries).1 v).id = v := by
      rw [generate_nodeAt entries hvgen]
      exact (buildNodes_idsOk entries).2 v (by omega)
    rw [hpid, hv, hid]
    simp [pidFromLookup, hv0]
  · intro hv
    rw [hnode] at hv ⊢
    constructor
    · rw [hpid, hv]
      simp [pidFromLookup]
    · rcases le_or_lt (buildNodes entries).nodes.length MAX_NODES with hle | hgt
      · rw [generate_of_le entries hle]
        apply mem_buildEdges.2
        refine ⟨h1, ?_, hv⟩
        rw [generate_fst_length] at hi
        omega
      · rw [generate_of_gt entries hgt]
        apply mem_buildTrimmedEdges.2
        have hkl : ((buildNodes entries).nodes.take MAX_NODES).length =
            MAX_NODES := by
          rw [List.length_take]
          omega
        have hiMax : i < MAX_NODES := by
          rw [generate_fst_length] at hi
          omega
        refine ⟨h1, ?_, ?_, ?_⟩
        · rw [hkl]
          omega
        · rw [hkl]
          norm_num [MAX_NODES]
        · rw [nodeAt_take hiMax]
          exact hv
  · intro hv
    rw [hnode] at hv ⊢
    rw [hpid, hv]
    simp [pidFromLookup]

/-! ## Concrete inputs for the witnesses -/

/-- A two-entry tree: one directory with one file inside. -/
def wEntries : List Entry := [⟨["a"], EType.tree⟩, ⟨["a", "b"], EType.blob⟩]

/-- A two-entry tree: one directory with one subdirectory inside. -/
def wEntriesD : List Entry := [⟨["a"], EType.tree⟩, ⟨["a", "b"], EType.tree⟩]

theorem flatEntries_wf (n : Nat) : WellFormed (flatEntries n) := by
  constructor
  · intro e he
    simp only [flatEntries, List.mem_map, List.mem_range] at he
    obtain ⟨i, hi, rfl⟩ := he
    simp
  · intro e he
    simp only [flatEntries, List.mem_map, List.mem_range] at he
    obtain ⟨i, hi, rfl⟩ := he
    left
    rfl

theorem flatEntries_big :
    MAX_NODES < (buildNodes (flatEntries 2501)).nodes.length := by
  rw [buildNodes_nodes_length]
  simp only [flatEntries, List.length_map, List.length_range, MAX_NODES]
  omega

/-- Witness for C1 at a 2501-entry tree, which the generator trims. -/
theorem claim_C1_witness :
    WellFormed (flatEntries 2501) ∧
    MAX_NODES < (buildNodes (flatEntries 2501)).nodes.length ∧
    (∀ i, 1 ≤ i → i < (generate (flatEntries 2501)).1.length →
      ∃ q, (i, q) ∈ (generate (flatEntries 2501)).2) :=
  ⟨flatEntries_wf 2501, flatEntries_big,
    (claim_C1 (flatEntries 2501) (flatEntries_wf 2501) flatEntries_big).2⟩

/-- Witness for C2 at a concrete two-entry tree. -/
theorem claim_C2_witness :
    WellFormed wEntries ∧
    (generate wEntries).2.length = (generate wEntries).1.length - 1 :=
  ⟨by decide, (claim_C2 wEntries (by decide)).2⟩

/-- Witness for C3: node 1 of a concrete output has id 1. -/
theorem claim_C3_witness :
    1 < (generate wEntries).1.length ∧ (nodeAt (generate wEntries).1 1).id = 1 :=
  ⟨by decide, (claim_C3 wEntries).2.2 1 (by decide)⟩

/-- Witness for C4 at a concrete two-entry tree. -/
theorem claim_C4_witness :
    WellFormed wEntries ∧ ¬ ∃ q, (0, q) ∈ (generate wEntries).2 :=
  ⟨by decide, (claim_C4 wEntries (by decide)).1⟩

/-- Witness for C5 at the trimmed 2501-entry tree. -/
theorem claim_C5_witness :
    MAX_NODES < (buildNodes (flatEntries 2501)).nodes.length ∧
    (generate (flatEntries 2501)).1.length = MAX_NODES :=
  ⟨flatEntries_big, (claim_C5 (flatEntries 2501) flatEntries_big).2.1⟩

/-- Witness for C6 at a concrete edge of a concrete output. -/
theorem claim_C6_witness :
    (2, 1) ∈ (generate wEntries).2 ∧
    2 < (generate wEntries).1.length ∧ 1 < (generate wEntries).1.length :=
  ⟨by decide, claim_C6 wEntries (2, 1) (by decide)⟩

/-- Witness for C7 at a concrete input (both runs on the same data). -/
theorem claim_C7_witness :
    nodesContent (generate wEntries).1 = nodesContent (generate wEntries).1 ∧
    (sortEntries wEntries).Perm wEntries :=
  ⟨(claim_C7 wEntries wEntries rfl).1.1, (claim_C7 wEntries wEntries rfl).2.1⟩

/-- Witness for C8: a failed (404) tree request exits 1 and writes
nothing, and so does a network-failed default-branch request when no
branch argument is given. -/
theorem claim_C8_witness :
    ghFetchM (some (404, ([] : List Entry))) =
      Except.error "GitHub API error" ∧
    runScript ["a/b"] (some (200, "main")) (some (404, [])) = ⟨1, []⟩ ∧
    ((["a/b"] : List String)[1]?).getD "" = "" ∧
    ghFetchM (none : Option (Nat × String)) = Except.error "network error" ∧
    runScript ["a/b"] none (some (200, [])) = ⟨1, []⟩ :=
  ⟨rfl,
    (claim_C8 ["a/b"] (some (200, "main"))
      (some (404, []))).2.1 "GitHub API error" rfl,
    rfl, rfl,
    (claim_C8 ["a/b"] none (some (200, []))).2.2.1 rfl "network error" rfl⟩

/-- Witness for C9 at a concrete edge: parent index 1 precedes child
index 2. -/
theorem claim_C9_witness :
    (∀ e ∈ wEntries, e.path ≠ []) ∧
    (2, 1) ∈ (generate wEntries).2 ∧ (1 : Nat) < 2 :=
  ⟨by decide, by decide, claim_C9 wEntries (by decide) (2, 1) (by decide)⟩

/-- Witness for C10: the nested directory of a concrete tree carries
`pid` equal to the string of its parent's id. -/
theorem claim_C10_witness :
    (∀ e ∈ wEntriesD, e.path ≠ []) ∧ 1 ≤ 2 ∧
    2 < (generate wEntriesD).1.length ∧
    lookupMap (buildNodes wEntriesD).dirMap
      (parentKey (nodeAt (generate wEntriesD).1 2).p) = some 1 ∧
    (nodeAt (generate wEntriesD).1 2).pid =
      some (toString (nodeAt (generate wEntriesD).1 1).id) :=
  ⟨by decide, by decide, by decide, by decide,
    (claim_C10 wEntriesD (by decide) 2 (by decide) (by decide)).1 1
      (by decide) (by decide)⟩
